import Mathlib

/-!
Verification of the NFT sale/mint notifier (src/main.py).

The file shallowly embeds the pure state logic of the program:

* the rolling de-duplication store (`_remember` over a bounded deque plus a
  mirror set, lines 39-55 of main.py),
* the anchor / backlog tracker and candidate selection of `poll_sales`
  (lines 149-174) and `poll_mints` (lines 281-306), which share the same
  algorithm over a batch of events,
* the age-gated emission filter (lines 181-187 and 313-319),
* the per-candidate processing loop, where a call to the notification sink
  (`send_telegram_message`) is modelled by appending the transaction hash
  to an emitted list,
* configuration parsing from environment variables (lines 11-23), where an
  uncaught exception at module scope (e.g. `int()` on a malformed value)
  terminates the process and is modelled by `Except.error`.

Python values are translated as follows: a string field that may be `None`
becomes `Option String`; a numeric timestamp that may be missing becomes
`Option Int`; Python truthiness of such a field is `none`/`some ""` (resp.
`none`/`some 0`) being falsy.  The Python `set` becomes a `Finset String`
and the `deque` a `List String` whose head is the oldest element.
`list.sort` is a stable sort by the event-time key; a stable sort by a
total preorder is uniquely determined by its input, so it is embedded as
`List.insertionSort` (also stable) on the same key.
-/

/-- An event of one polling stream.  For sales (Bithomp records), `hash` is
the `acceptedTxHash` field and `time` the `acceptedAt` Unix timestamp.  For
mints (XRPL `NFTokenMint` transactions), `hash` is the `hash` field and
`time` the ripple-epoch `date` field.  A missing field is `none`. -/
structure Event where
  hash : Option String
  time : Option Int
deriving DecidableEq

/-- The sort key `_t` of `poll_sales` (`int(s.get("acceptedAt", 0))`, with
exceptions mapped to 0) and the mint sort key `t.get("date", 0)`. -/
def timeKey (e : Event) : Int := e.time.getD 0

/-- The comparison used by the batch sort: ascending event-time key. -/
def timeLE (a b : Event) : Prop := timeKey a ≤ timeKey b

instance : DecidableRel timeLE :=
  fun a b => inferInstanceAs (Decidable (timeKey a ≤ timeKey b))

instance : IsTotal Event timeLE := ⟨fun a b => Int.le_total (timeKey a) (timeKey b)⟩

instance : IsTrans Event timeLE := ⟨fun _ _ _ h h' => le_trans h h'⟩

/-- `sales.sort(key=_t)` / `mints.sort(key=...)`: stable ascending sort by
the time key. -/
def sortBatch (l : List Event) : List Event :=
  l.insertionSort timeLE

/-- The rolling de-dup store of one stream: the bounded `deque` (head =
oldest inserted) together with its mirror membership `set`, and the
configured capacity `MAX_DEDUP` (the deque's `maxlen`). -/
structure DedupState where
  dq : List String
  s : Finset String
  maxlen : Nat
deriving DecidableEq

/-- A fresh store, as created at process start:
`deque(maxlen=MAX_DEDUP)` and an empty `set`. -/
def initDedup (c : Nat) : DedupState := ⟨[], ∅, c⟩

/-- Membership test `h in seen_set`. -/
def seen (st : DedupState) (h : String) : Bool := decide (h ∈ st.s)

/-- `dq.append(h)` on a Python `deque` with a `maxlen` bound: when the deque
is full the item at the opposite end is discarded, and with `maxlen = 0`
the appended item itself is discarded. -/
def dequeAppend (maxlen : Nat) (dq : List String) (h : String) : List String :=
  if maxlen = 0 then dq
  else if dq.length = maxlen then dq.tail ++ [h]
  else dq ++ [h]

/-- `_remember(dq, s, h)` (main.py lines 47-55).  A falsy hash (`None` or
the empty string) and an already-present hash are ignored; when the deque
is full the oldest element is popped from the left and removed from the
set before the new hash is appended and added. -/
def remember (st : DedupState) (h : Option String) : DedupState :=
  match h with
  | none => st
  | some hs =>
    if hs = "" ∨ hs ∈ st.s then st
    else
      let st1 := if st.dq.length = st.maxlen ∧ 0 < st.maxlen then
                   { st with dq := st.dq.tail, s := st.s.erase (st.dq.headD "") }
                 else st
      { st1 with dq := dequeAppend st1.maxlen st1.dq hs, s := insert hs st1.s }

/-- The per-stream tracker state: the anchor (`last_seen_sale_tx` /
`last_seen_mint_tx`, `none` meaning the stream was never observed) and the
de-dup store. -/
structure StreamState where
  anchor : Option String
  dedup : DedupState
deriving DecidableEq

/-- The environment of one poll: the `AGE_CUTOFF_MIN` guardrail, the
`ALLOW_BACKFILL` override, the current wall-clock time `_now()` in Unix
seconds, and the epoch shift applied to raw event times (0 for sales,
946684800 for the ripple epoch of mint `date` fields). -/
structure PollCtx where
  ageCutoffMin : Int
  allowBackfill : Bool
  now : Int
  epochShift : Int
deriving DecidableEq

/-- The age test of lines 181-183 / 313-315: `event_dt` exists only when
the raw timestamp field is truthy (not `None` and not `0`), and the event
is too old when `now - event_dt` exceeds `timedelta(minutes=AGE_CUTOFF_MIN)`. -/
def tooOld (ctx : PollCtx) (e : Event) : Bool :=
  match e.time with
  | none => false
  | some t => if t = 0 then false
              else decide (ctx.now - (t + ctx.epochShift) > ctx.ageCutoffMin * 60)

/-- `e.hash.getD ""` — the Python expression `sale.get("acceptedTxHash") or ""`
(`tx.get("hash") or ""` for mints). -/
def hashD (e : Event) : String := e.hash.getD ""

/-- The `new_events` computation of lines 168-174 / 300-306: walk the sorted
batch accumulating events, resetting the accumulator to empty whenever the
event's hash equals the anchor.  The result is the list of events strictly
after the last occurrence of the anchor hash — or the whole batch when the
anchor hash never occurs. -/
def candStep (a : String) (acc : List Event) (e : Event) : List Event :=
  if e.hash = some a then [] else acc ++ [e]

def computeCandidates (a : String) (l : List Event) : List Event :=
  l.foldl (candStep a) []

/-- The state threaded through the candidate loop of lines 176-247 /
308-362: the anchor (a plain string inside the loop), the de-dup store, and
the list of hashes for which the notification sink was called. -/
structure ProcResult where
  anchor : String
  dedup : DedupState
  notified : List String
deriving DecidableEq

/-- One iteration of the candidate loop (lines 176-247 / 308-362): an empty
or already-seen hash is skipped; a too-old candidate (with `ALLOW_BACKFILL`
off) is remembered and advances the anchor without a sink call; otherwise
the sink is called and the same bookkeeping runs. -/
def processCandidate (ctx : PollCtx) (r : ProcResult) (e : Event) : ProcResult :=
  let tx := hashD e
  if tx = "" ∨ seen r.dedup tx then r
  else if tooOld ctx e && !ctx.allowBackfill then
    { anchor := tx, dedup := remember r.dedup (some tx), notified := r.notified }
  else
    { anchor := tx, dedup := remember r.dedup (some tx),
      notified := r.notified ++ [tx] }

/-- One successful poll of a stream (`poll_sales` lines 143-249,
`poll_mints` lines 275-364), given the fetched batch: an empty batch
returns early; otherwise the batch is sorted; with no anchor the stream is
seeded from the most recent event and nothing is emitted; with an anchor
the candidates after its last occurrence are processed in order.  Returns
the new stream state and the hashes sent to the notification sink. -/
def processPoll (ctx : PollCtx) (st : StreamState) (batch : List Event) :
    StreamState × List String :=
  if batch = [] then (st, [])
  else
    let sorted := sortBatch batch
    match st.anchor with
    | none =>
        let h := sorted.getLast?.bind Event.hash
        ({ anchor := h, dedup := remember st.dedup h }, [])
    | some a =>
        let r := (computeCandidates a sorted).foldl (processCandidate ctx)
          ⟨a, st.dedup, []⟩
        ({ anchor := some r.anchor, dedup := r.dedup }, r.notified)

/-- The configuration globals read from the environment at module scope
(main.py lines 11-23).  Required credentials are read with `os.getenv`
without any validation, so a missing value simply yields `None`. -/
structure Config where
  bithompApiToken : Option String
  xrplNftIssuer : Option String
  telegramBotToken : Option String
  telegramChatId : Option String
  pollInterval : Int
  xrplRpcUrl : String
  ageCutoffMin : Int
  allowBackfill : Bool
  requestTimeout : Int
  maxDedup : Int
  maxErrors : Int
deriving DecidableEq

/-- Decimal digit parsing for the model of Python `int()`. -/
def pyIntAux : List Char → Nat → Option Nat
  | [], acc => some acc
  | c :: cs, acc =>
      if c.isDigit then pyIntAux cs (acc * 10 + (c.toNat - 48)) else none

/-- Python `int()` on a string: an optional sign followed by one or more
ASCII digits parses to the integer, anything else raises `ValueError`
(returned as `none`).  Exotic accepted forms (surrounding whitespace,
underscore separators) are not needed by this model. -/
def pyInt (s : String) : Option Int :=
  match s.data with
  | [] => none
  | '-' :: cs =>
      if cs = [] then none
      else (pyIntAux cs 0).map (fun n => -(n : Int))
  | '+' :: cs =>
      if cs = [] then none
      else (pyIntAux cs 0).map (fun n => (n : Int))
  | cs => (pyIntAux cs 0).map (fun n => (n : Int))

/-- `int(os.getenv(key, default))`: the environment value (or the default
string) is parsed as an integer; a malformed value raises `ValueError` at
module scope, which terminates the process (modelled as `Except.error`
naming the offending key). -/
def getenvInt (env : String → Option String) (key dflt : String) :
    Except String Int :=
  match pyInt ((env key).getD dflt) with
  | some n => Except.ok n
  | none => Except.error key

/-- `os.getenv(key) or default` — the default is used when the variable is
absent or empty (Python truthiness). -/
def getenvOr (env : String → Option String) (key dflt : String) : String :=
  match env key with
  | none => dflt
  | some s => if s = "" then dflt else s

/-- Startup configuration loading, main.py lines 11-23.  String options are
read unvalidated; numeric options are parsed with `int()` over a default;
`ALLOW_BACKFILL` is the comparison of the raw value with `"1"`. -/
def parseConfig (env : String → Option String) : Except String Config := do
  let pollInterval ← getenvInt env "POLL_INTERVAL" "30"
  let ageCutoffMin ← getenvInt env "AGE_CUTOFF_MIN" "120"
  let requestTimeout ← getenvInt env "REQUEST_TIMEOUT" "10"
  let maxDedup ← getenvInt env "MAX_DEDUP" "8000"
  let maxErrors ← getenvInt env "MAX_ERRORS" "5"
  return { bithompApiToken := env "BITHOMP_API_TOKEN"
           xrplNftIssuer := env "SECOND_COLLECTION_ISSUER"
           telegramBotToken := env "TELEGRAM_BOT_TOKEN"
           telegramChatId := env "GROUP_CHAT_ID"
           pollInterval := pollInterval
           xrplRpcUrl := getenvOr env "XRPL_RPC_URL" "https://s1.ripple.com:51234/"
           ageCutoffMin := ageCutoffMin
           allowBackfill := (env "ALLOW_BACKFILL").getD "0" = "1"
           requestTimeout := requestTimeout
           maxDedup := maxDedup
           maxErrors := maxErrors }

/-- The whole-process view used for the persistence claims: the in-memory
stream state (main.py keeps it in module globals, lines 34-45) together
with the contents of durable storage.  The source contains no persistence
code at all, so nothing ever reads or writes `storage`. -/
structure ProcessState where
  stream : StreamState
  storage : Option (List String)
deriving DecidableEq

/-- A poll at the process level: the stream state is updated in memory and
durable storage is untouched, because the source performs no storage I/O. -/
def pollProcess (ctx : PollCtx) (p : ProcessState) (batch : List Event) :
    ProcessState × List String :=
  let r := processPoll ctx p.stream batch
  (⟨r.1, p.storage⟩, r.2)

/-- A process restart: the module globals are re-created from scratch
(anchor `None`, empty de-dup structures with capacity `MAX_DEDUP = c`),
and nothing is loaded from storage since the source has no load path. -/
def restartProcess (c : Nat) (p : ProcessState) : ProcessState :=
  ⟨⟨none, initDedup c⟩, p.storage⟩

/-! ### Lemmas about the candidate computation -/

lemma candStep_foldl_no_match (a : String) :
    ∀ (l acc : List Event), (∀ e ∈ l, e.hash ≠ some a) →
      l.foldl (candStep a) acc = acc ++ l := by
  intro l
  induction l with
  | nil => intro acc _; simp
  | cons e l ih =>
      intro acc h
      have he : e.hash ≠ some a := h e (List.mem_cons_self e l)
      simp only [List.foldl_cons, candStep, if_neg he]
      rw [ih _ (fun x hx => h x (List.mem_cons_of_mem e hx))]
      simp

lemma computeCandidates_not_found (a : String) (l : List Event)
    (h : ∀ e ∈ l, e.hash ≠ some a) : computeCandidates a l = l := by
  rw [computeCandidates, candStep_foldl_no_match a l [] h, List.nil_append]

lemma computeCandidates_last_occ (a : String) (u v : List Event) (e : Event)
    (he : e.hash = some a) (hv : ∀ x ∈ v, x.hash ≠ some a) :
    computeCandidates a (u ++ e :: v) = v := by
  rw [computeCandidates, List.foldl_append, List.foldl_cons]
  have hstep : candStep a (u.foldl (candStep a) []) e = [] := by
    rw [candStep, if_pos he]
  rw [hstep, candStep_foldl_no_match a v [] hv, List.nil_append]

lemma candStep_foldl_suffix (a : String) :
    ∀ (l acc : List Event), l.foldl (candStep a) acc = acc ++ l ∨
      (l.foldl (candStep a) acc) <:+ l := by
  intro l
  induction l with
  | nil => intro acc; left; simp
  | cons e l ih =>
      intro acc
      by_cases he : e.hash = some a
      · right
        rw [List.foldl_cons, candStep, if_pos he]
        rcases ih [] with h | h
        · rw [h, List.nil_append]; exact List.suffix_cons e l
        · exact h.trans (List.suffix_cons e l)
      · rw [List.foldl_cons, candStep, if_neg he]
        rcases ih (acc ++ [e]) with h | h
        · left; rw [h, List.append_assoc, List.singleton_append]
        · right; exact h.trans (List.suffix_cons e l)

lemma computeCandidates_suffix (a : String) (l : List Event) :
    (computeCandidates a l) <:+ l := by
  rcases candStep_foldl_suffix a l [] with h | h
  · rw [computeCandidates, h, List.nil_append]
  · exact h

/-! ### Lemmas about the de-dup store -/

lemma remember_maxlen (st : DedupState) (h : Option String) :
    (remember st h).maxlen = st.maxlen := by
  rcases h with _ | hs
  · rfl
  · rw [remember]
    by_cases hc : hs = "" ∨ hs ∈ st.s
    · rw [if_pos hc]
    · rw [if_neg hc]
      by_cases hfull : st.dq.length = st.maxlen ∧ 0 < st.maxlen
      · simp only [if_pos hfull]
      · simp only [if_neg hfull]

lemma dequeAppend_not_full (maxlen : Nat) (dq : List String) (h : String)
    (h0 : maxlen ≠ 0) (hlen : dq.length ≠ maxlen) :
    dequeAppend maxlen dq h = dq ++ [h] := by
  rw [dequeAppend, if_neg h0, if_neg hlen]

lemma seen_remember_self (st : DedupState) (h : String) (hne : h ≠ "") :
    seen (remember st (some h)) h = true := by
  rw [remember]
  by_cases hc : h = "" ∨ h ∈ st.s
  · rw [if_pos hc]
    rcases hc with h1 | h1
    · exact absurd h1 hne
    · simp [seen, h1]
  · rw [if_neg hc]
    simp [seen]

lemma remember_noop_of_mem (st : DedupState) (h : String) (hmem : h ∈ st.s) :
    remember st (some h) = st := by
  rw [remember, if_pos (Or.inr hmem)]

lemma seen_lost_only_by_eviction (st : DedupState) (h h' : String)
    (hseen : h ∈ st.s) (hlost : h ∉ (remember st (some h')).s) :
    st.dq.length = st.maxlen ∧ 0 < st.maxlen ∧ st.dq.head? = some h := by
  rw [remember] at hlost
  by_cases hc : h' = "" ∨ h' ∈ st.s
  · rw [if_pos hc] at hlost; exact absurd hseen hlost
  · rw [if_neg hc] at hlost
    by_cases hfull : st.dq.length = st.maxlen ∧ 0 < st.maxlen
    · simp only [if_pos hfull, Finset.mem_insert, Finset.mem_erase] at hlost
      push_neg at hlost
      have hdqne : st.dq ≠ [] := by
        intro h0
        rw [h0] at hfull
        simp at hfull
        omega
      obtain ⟨old, rest, hdq⟩ := List.exists_cons_of_ne_nil hdqne
      have hold : h = old := by
        by_contra hno
        have := hlost.2
        rw [hdq] at this
        simp only [List.headD_cons] at this
        exact (this hno) hseen
      exact ⟨hfull.1, hfull.2, by rw [hdq, hold]; rfl⟩
    · simp only [if_neg hfull, Finset.mem_insert] at hlost
      push_neg at hlost
      exact absurd hseen hlost.2

lemma remember_evicts_oldest (st : DedupState) (h : String) (hne : h ≠ "")
    (hmem : h ∉ st.s) (hfull : st.dq.length = st.maxlen) (hpos : 0 < st.maxlen) :
    (remember st (some h)).dq = st.dq.tail ++ [h] := by
  rw [remember, if_neg (by push_neg; exact ⟨hne, hmem⟩)]
  simp only [if_pos (And.intro hfull hpos)]
  apply dequeAppend_not_full
  · omega
  · have : st.dq ≠ [] := by
      intro h0
      rw [h0] at hfull
      simp at hfull
      omega
    obtain ⟨old, rest, hdq⟩ := List.exists_cons_of_ne_nil this
    rw [hdq] at hfull ⊢
    simp only [List.tail_cons]
    simp only [List.length_cons] at hfull
    omega

/-- The invariant of the rolling de-dup store: the deque is duplicate-free,
the mirror set holds exactly the deque's elements, and the size is within
the configured capacity. -/
def DedupInv (st : DedupState) : Prop :=
  st.dq.Nodup ∧ (∀ x, x ∈ st.s ↔ x ∈ st.dq) ∧ st.dq.length ≤ st.maxlen

lemma DedupInv_init (c : Nat) : DedupInv (initDedup c) :=
  ⟨List.nodup_nil, fun x => by simp [initDedup], by simp [initDedup]⟩

lemma DedupInv_remember (st : DedupState) (h : Option String)
    (hpos : 0 < st.maxlen) (hinv : DedupInv st) : DedupInv (remember st h) := by
  obtain ⟨hnd, hag, hlen⟩ := hinv
  rcases h with _ | hs
  · exact ⟨hnd, hag, hlen⟩
  · rw [remember]
    by_cases hc : hs = "" ∨ hs ∈ st.s
    · rw [if_pos hc]; exact ⟨hnd, hag, hlen⟩
    · rw [if_neg hc]
      push_neg at hc
      obtain ⟨hne, hmem⟩ := hc
      have hnotdq : hs ∉ st.dq := fun hx => hmem ((hag hs).mpr hx)
      by_cases hfull : st.dq.length = st.maxlen ∧ 0 < st.maxlen
      · simp only [if_pos hfull]
        have hdqne : st.dq ≠ [] := by
          intro h0
          rw [h0] at hfull
          simp at hfull
          omega
        obtain ⟨old, rest, hdq⟩ := List.exists_cons_of_ne_nil hdqne
        have hrestlen : rest.length + 1 = st.maxlen := by
          rw [hdq] at hfull
          simpa using hfull.1
        have hda : dequeAppend st.maxlen st.dq.tail hs = st.dq.tail ++ [hs] := by
          apply dequeAppend_not_full
          · omega
          · rw [hdq]; simp only [List.tail_cons]; omega
        have holdrest : old ∉ rest := by
          rw [hdq] at hnd
          exact (List.nodup_cons.mp hnd).1
        have hrestnd : rest.Nodup := by
          rw [hdq] at hnd
          exact (List.nodup_cons.mp hnd).2
        refine ⟨?_, ?_, ?_⟩
        · rw [hda, hdq]
          simp only [List.tail_cons]
          rw [List.nodup_append]
          refine ⟨hrestnd, List.nodup_singleton hs, ?_⟩
          intro x hx
          simp only [List.mem_singleton]
          intro hxeq
          rw [hxeq] at hx
          exact hnotdq (by rw [hdq]; exact List.mem_cons_of_mem old hx)
        · intro x
          rw [hda, hdq]
          simp only [List.tail_cons, List.headD_cons, Finset.mem_insert,
            Finset.mem_erase, List.mem_append, List.mem_singleton]
          rw [hag x, hdq]
          simp only [List.mem_cons]
          constructor
          · rintro (hx | ⟨hxo, hx2⟩)
            · right; exact hx
            · left
              rcases hx2 with hx2 | hx2
              · exact absurd hx2 hxo
              · exact hx2
          · rintro (hx | hx)
            · right
              constructor
              · intro hxeq
                rw [hxeq] at hx
                exact holdrest hx
              · right; exact hx
            · left; exact hx
        · rw [hda, hdq]
          simp only [List.tail_cons, List.length_append, List.length_singleton]
          omega
      · simp only [if_neg hfull]
        have hlt : st.dq.length < st.maxlen := by
          rcases Nat.lt_or_ge st.dq.length st.maxlen with h | h
          · exact h
          · exact absurd ⟨le_antisymm hlen h, hpos⟩ hfull
        have hda : dequeAppend st.maxlen st.dq hs = st.dq ++ [hs] := by
          apply dequeAppend_not_full <;> omega
        refine ⟨?_, ?_, ?_⟩
        · rw [hda, List.nodup_append]
          refine ⟨hnd, List.nodup_singleton hs, ?_⟩
          intro x hx
          simp only [List.mem_singleton]
          intro hxeq
          rw [hxeq] at hx
          exact hnotdq hx
        · intro x
          rw [hda]
          simp only [Finset.mem_insert, List.mem_append, List.mem_singleton,
            hag x]
          tauto
        · rw [hda]
          simp only [List.length_append, List.length_singleton]
          omega

lemma DedupInv_foldl (ops : List (Option String)) :
    ∀ st : DedupState, 0 < st.maxlen → DedupInv st →
      DedupInv (ops.foldl remember st) ∧
      (ops.foldl remember st).maxlen = st.maxlen := by
  induction ops with
  | nil => intro st _ hi; exact ⟨hi, rfl⟩
  | cons op ops ih =>
      intro st hpos hi
      have h1 := remember_maxlen st op
      have h2 := ih (remember st op) (by rw [h1]; exact hpos)
        (DedupInv_remember st op hpos hi)
      rw [List.foldl_cons]
      exact ⟨h2.1, by rw [h2.2, h1]⟩

lemma processCandidate_suppress (ctx : PollCtx) (r : ProcResult) (e : Event)
    (tx : String) (h1 : e.hash = some tx) (h2 : tx ≠ "")
    (h3 : seen r.dedup tx = false) (h4 : tooOld ctx e = true)
    (h5 : ctx.allowBackfill = false) :
    processCandidate ctx r e =
      { anchor := tx, dedup := remember r.dedup (some tx),
        notified := r.notified } := by
  have htx : hashD e = tx := by rw [hashD, h1]; rfl
  rw [processCandidate]
  simp only [htx, h3, h4, h5]
  rw [if_neg (by push_neg; exact ⟨h2, by simp⟩)]
  simp

lemma processCandidate_notify (ctx : PollCtx) (r : ProcResult) (e : Event)
    (tx : String) (h1 : e.hash = some tx) (h2 : tx ≠ "")
    (h3 : seen r.dedup tx = false)
    (h4 : (tooOld ctx e && !ctx.allowBackfill) = false) :
    processCandidate ctx r e =
      { anchor := tx, dedup := remember r.dedup (some tx),
        notified := r.notified ++ [tx] } := by
  have htx : hashD e = tx := by rw [hashD, h1]; rfl
  rw [processCandidate]
  simp only [htx, h3, h4]
  rw [if_neg (by push_neg; exact ⟨h2, by simp⟩)]
  simp

/-- C4: a candidate that is too old while `ALLOW_BACKFILL` is off makes no
call to the notification sink, yet its hash is remembered in the de-dup
store and the anchor advances to it (main.py lines 184-187 / 316-319). -/
theorem suppressed_candidate_bookkeeping (ctx : PollCtx) (r : ProcResult)
    (e : Event) (tx : String) (h1 : e.hash = some tx) (h2 : tx ≠ "")
    (h3 : seen r.dedup tx = false) (h4 : tooOld ctx e = true)
    (h5 : ctx.allowBackfill = false) :
    (processCandidate ctx r e).notified = r.notified ∧
    seen (processCandidate ctx r e).dedup tx = true ∧
    (processCandidate ctx r e).anchor = tx := by
  rw [processCandidate_suppress ctx r e tx h1 h2 h3 h4 h5]
  exact ⟨rfl, seen_remember_self r.dedup tx h2, rfl⟩

theorem suppressed_candidate_bookkeeping_witness :
    (processCandidate ⟨120, false, 100000, 0⟩ ⟨"x", initDedup 5, []⟩
        ⟨some "a", some 10⟩).notified = [] ∧
    seen (processCandidate ⟨120, false, 100000, 0⟩ ⟨"x", initDedup 5, []⟩
        ⟨some "a", some 10⟩).dedup "a" = true ∧
    (processCandidate ⟨120, false, 100000, 0⟩ ⟨"x", initDedup 5, []⟩
        ⟨some "a", some 10⟩).anchor = "a" :=
  suppressed_candidate_bookkeeping ⟨120, false, 100000, 0⟩
    ⟨"x", initDedup 5, []⟩ ⟨some "a", some 10⟩ "a" rfl (by decide) (by decide)
    (by decide) rfl

/-- C5: for a (non-empty) hash, `remember` makes `seen` true; `remember` of
an already-present hash is a no-op; and a seen hash can only become unseen
through a capacity-overflow eviction in which it was the oldest (front)
element of the deque (main.py lines 47-55). -/
theorem remember_seen_contract (st : DedupState) (h h' : String)
    (hne : h ≠ "") :
    seen (remember st (some h)) h = true ∧
    (h ∈ st.s → remember st (some h) = st) ∧
    (seen st h = true → seen (remember st (some h')) h = false →
      st.dq.length = st.maxlen ∧ 0 < st.maxlen ∧ st.dq.head? = some h) := by
  refine ⟨seen_remember_self st h hne, remember_noop_of_mem st h, ?_⟩
  intro h1 h2
  have hseen : h ∈ st.s := by simpa [seen] using h1
  have hlost : h ∉ (remember st (some h')).s := by simpa [seen] using h2
  exact seen_lost_only_by_eviction st h h' hseen hlost

theorem remember_seen_contract_witness :
    seen (remember (initDedup 2) (some "a")) "a" = true ∧
    ("a" ∈ (initDedup 2).s → remember (initDedup 2) (some "a") = initDedup 2) ∧
    (seen (initDedup 2) "a" = true →
      seen (remember (initDedup 2) (some "b")) "a" = false →
      (initDedup 2).dq.length = (initDedup 2).maxlen ∧
      0 < (initDedup 2).maxlen ∧ (initDedup 2).dq.head? = some "a") :=
  remember_seen_contract (initDedup 2) "a" "b" (by decide)

/-- C6: starting from a fresh store of positive capacity `c`, any sequence
of `remember` operations keeps the deque within capacity, keeps the mirror
set within capacity and in exact agreement with the deque; and whenever a
full store remembers a fresh hash, the oldest (front) element is the one
evicted (FIFO). -/
theorem dedup_capacity_fifo_agree (c : Nat) (hc : 0 < c)
    (ops : List (Option String)) :
    ((ops.foldl remember (initDedup c)).dq.length ≤ c ∧
     (ops.foldl remember (initDedup c)).s.card ≤ c ∧
     (∀ x, x ∈ (ops.foldl remember (initDedup c)).s ↔
        x ∈ (ops.foldl remember (initDedup c)).dq)) ∧
    (∀ (st : DedupState) (h : String), h ≠ "" → h ∉ st.s →
      st.dq.length = st.maxlen → 0 < st.maxlen →
      (remember st (some h)).dq = st.dq.tail ++ [h]) := by
  constructor
  · have hinit : (initDedup c).maxlen = c := rfl
    have h0 : (0 : Nat) < (initDedup c).maxlen := by rw [hinit]; exact hc
    obtain ⟨⟨hnd, hag, hlen⟩, hm⟩ := DedupInv_foldl ops (initDedup c) h0
      (DedupInv_init c)
    rw [hinit] at hm
    refine ⟨by omega, ?_, hag⟩
    have hset : (ops.foldl remember (initDedup c)).s =
        (ops.foldl remember (initDedup c)).dq.toFinset := by
      apply Finset.ext
      intro x
      rw [List.mem_toFinset]
      exact hag x
    rw [hset, List.toFinset_card_of_nodup hnd]
    omega
  · intro st h hne hmem hfull hpos
    exact remember_evicts_oldest st h hne hmem hfull hpos

theorem dedup_capacity_fifo_agree_witness :
    ((([some "a", some "b", some "c"].foldl remember (initDedup 2)).dq.length ≤ 2 ∧
      (([some "a", some "b", some "c"].foldl remember (initDedup 2)).s.card ≤ 2 ∧
       (∀ x, x ∈ ([some "a", some "b", some "c"].foldl remember (initDedup 2)).s ↔
          x ∈ ([some "a", some "b", some "c"].foldl remember (initDedup 2)).dq))) ∧
     (∀ (st : DedupState) (h : String), h ≠ "" → h ∉ st.s →
       st.dq.length = st.maxlen → 0 < st.maxlen →
       (remember st (some h)).dq = st.dq.tail ++ [h])) := by
  have := dedup_capacity_fifo_agree 2 (by decide) [some "a", some "b", some "c"]
  exact ⟨⟨this.1.1, this.1.2.1, this.1.2.2⟩, this.2⟩

/-- C10: a candidate whose raw timestamp field is absent (or zero, the
falsy case that covers mint `date == 0`) is never classified as too old,
so a fresh candidate with such a timestamp is sent to the notification
sink whatever the age cutoff and backfill flag are (main.py lines 181-184
/ 313-316). -/
theorem missing_timestamp_not_too_old (ctx : PollCtx) (r : ProcResult)
    (e : Event) (tx : String) (h0 : e.time = none ∨ e.time = some 0)
    (h1 : e.hash = some tx) (h2 : tx ≠ "") (h3 : seen r.dedup tx = false) :
    tooOld ctx e = false ∧
    (processCandidate ctx r e).notified = r.notified ++ [tx] := by
  have ht : tooOld ctx e = false := by
    rcases h0 with h0 | h0 <;> simp [tooOld, h0]
  refine ⟨ht, ?_⟩
  rw [processCandidate_notify ctx r e tx h1 h2 h3 (by rw [ht]; rfl)]

theorem missing_timestamp_not_too_old_witness :
    tooOld ⟨0, false, 1000000000, 0⟩ ⟨some "a", none⟩ = false ∧
    (processCandidate ⟨0, false, 1000000000, 0⟩ ⟨"x", initDedup 5, []⟩
      ⟨some "a", none⟩).notified = [] ++ ["a"] :=
  missing_timestamp_not_too_old ⟨0, false, 1000000000, 0⟩
    ⟨"x", initDedup 5, []⟩ ⟨some "a", none⟩ "a" (Or.inl rfl) rfl (by decide)
    (by decide)

/-! ### Lemmas about one poll -/

lemma sortBatch_perm (l : List Event) : List.Perm (sortBatch l) l :=
  List.perm_insertionSort timeLE l

lemma sortBatch_sorted (l : List Event) : (sortBatch l).Pairwise timeLE :=
  List.sorted_insertionSort timeLE l

lemma sortBatch_ne_nil (l : List Event) (h : l ≠ []) : sortBatch l ≠ [] := by
  intro h0
  have hp := sortBatch_perm l
  rw [h0] at hp
  exact h hp.nil_eq.symm

lemma processPoll_seed (ctx : PollCtx) (st : StreamState)
    (batch : List Event) (hb : ¬batch = []) (ha : st.anchor = none) :
    processPoll ctx st batch =
      ({ anchor := (sortBatch batch).getLast?.bind Event.hash,
         dedup := remember st.dedup ((sortBatch batch).getLast?.bind Event.hash) },
       []) := by
  rw [processPoll, if_neg hb]
  simp only [ha]

lemma processPoll_steady (ctx : PollCtx) (st : StreamState)
    (batch : List Event) (a : String) (hb : ¬batch = [])
    (ha : st.anchor = some a) :
    processPoll ctx st batch =
      ({ anchor := some ((computeCandidates a (sortBatch batch)).foldl
            (processCandidate ctx) ⟨a, st.dedup, []⟩).anchor,
         dedup := ((computeCandidates a (sortBatch batch)).foldl
            (processCandidate ctx) ⟨a, st.dedup, []⟩).dedup },
       ((computeCandidates a (sortBatch batch)).foldl
          (processCandidate ctx) ⟨a, st.dedup, []⟩).notified) := by
  rw [processPoll, if_neg hb]
  simp only [ha]

/-! ### C1: behavior when the anchor hash is absent from the batch -/

/-- C1 (counterexample): the claim says that when the anchor hash never
appears in the sorted batch no candidate is emitted.  Here the anchor is
`"x"`, the single fetched event has hash `"a"` (so the anchor appears
nowhere), and the poll nevertheless calls the notification sink for `"a"`:
the code accumulates every non-matching event, so the whole batch becomes
candidates. -/
theorem anchor_missing_counterexample :
    computeCandidates "x" (sortBatch [⟨some "a", some 900⟩]) =
      [⟨some "a", some 900⟩] ∧
    (processPoll ⟨120, false, 1000, 0⟩ ⟨some "x", initDedup 5⟩
        [⟨some "a", some 900⟩]).2 = ["a"] := by decide

/-- C1 (amended): if the anchor hash does not appear anywhere in the
sorted batch, then every event of the batch becomes a candidate for that
poll — the whole batch is treated as new (main.py lines 168-174 /
300-306); the de-dup store and age filter still apply to each candidate
before any notification. -/
theorem anchor_missing_whole_batch (a : String) (l : List Event)
    (h : ∀ e ∈ l, e.hash ≠ some a) : computeCandidates a l = l :=
  computeCandidates_not_found a l h

theorem anchor_missing_whole_batch_witness :
    computeCandidates "x" [⟨some "a", some 1⟩, ⟨some "b", some 2⟩] =
      [⟨some "a", some 1⟩, ⟨some "b", some 2⟩] :=
  anchor_missing_whole_batch "x" [⟨some "a", some 1⟩, ⟨some "b", some 2⟩]
    (by decide)

/-! ### C2: candidates after the last occurrence of the anchor -/

/-- C2: in steady state, when the sorted batch is `pre ++ e :: post` with
`e` carrying the anchor hash and the anchor hash not occurring in `post`
(so `e` is its last occurrence, at position `k = pre.length`), exactly the
events after position `k` become candidates, and they are in ascending
event-time order (main.py lines 149-174 / 286-306). -/
theorem steady_candidates_after_anchor (a : String) (pre post : List Event)
    (e : Event) (he : e.hash = some a) (hpost : ∀ x ∈ post, x.hash ≠ some a)
    (hsorted : (pre ++ e :: post).Pairwise timeLE) :
    computeCandidates a (pre ++ e :: post) = post ∧
    post.Pairwise timeLE := by
  refine ⟨computeCandidates_last_occ a pre post e he hpost, ?_⟩
  have hsub : post.Sublist (pre ++ e :: post) := by
    refine List.Sublist.trans ?_ (List.sublist_append_right pre (e :: post))
    exact List.sublist_cons_self e post
  exact hsorted.sublist hsub

theorem steady_candidates_after_anchor_witness :
    computeCandidates "x"
      ([⟨some "a", some 1⟩] ++ ⟨some "x", some 2⟩ ::
        [⟨some "b", some 3⟩, ⟨some "c", some 4⟩]) =
      [⟨some "b", some 3⟩, ⟨some "c", some 4⟩] ∧
    ([⟨some "b", some 3⟩, ⟨some "c", some 4⟩] : List Event).Pairwise timeLE :=
  steady_candidates_after_anchor "x" [⟨some "a", some 1⟩]
    [⟨some "b", some 3⟩, ⟨some "c", some 4⟩] ⟨some "x", some 2⟩ rfl
    (by decide) (by decide)

/-! ### C3: seeding a stream -/

/-- C3: the first-ever non-empty batch of a stream emits nothing, sets the
anchor to the hash of the most recent event of the batch (the last element
of the stable ascending sort, whose time key is maximal), and remembers
that hash in the de-dup store (main.py lines 156-163 / 288-295). -/
theorem seed_no_emit_sets_anchor (ctx : PollCtx) (st : StreamState)
    (batch : List Event) (ha : st.anchor = none) (hne : batch ≠ []) :
    (processPoll ctx st batch).2 = [] ∧
    ∃ e : Event, (sortBatch batch).getLast? = some e ∧
      (processPoll ctx st batch).1.anchor = e.hash ∧
      (∀ x ∈ batch, timeKey x ≤ timeKey e) ∧
      (∀ s : String, e.hash = some s → s ≠ "" →
        seen (processPoll ctx st batch).1.dedup s = true) := by
  rw [processPoll_seed ctx st batch hne ha]
  have hsne : sortBatch batch ≠ [] := sortBatch_ne_nil batch hne
  obtain ⟨e, he⟩ : ∃ e, (sortBatch batch).getLast? = some e := by
    cases hgl : (sortBatch batch).getLast? with
    | none => exact absurd (List.getLast?_eq_none_iff.mp hgl) hsne
    | some e => exact ⟨e, rfl⟩
  have he' : e = (sortBatch batch).getLast hsne := by
    rw [List.getLast?_eq_getLast _ hsne, Option.some_inj] at he
    exact he.symm
  have hdec : (sortBatch batch).dropLast ++ [e] = sortBatch batch := by
    rw [he']
    exact List.dropLast_append_getLast hsne
  refine ⟨rfl, e, he, by rw [he]; rfl, ?_, ?_⟩
  · intro x hx
    have hxs : x ∈ (sortBatch batch).dropLast ++ [e] := by
      rw [hdec]
      exact (sortBatch_perm batch).mem_iff.mpr hx
    have hsorted : ((sortBatch batch).dropLast ++ [e]).Pairwise timeLE := by
      rw [hdec]
      exact sortBatch_sorted batch
    rcases List.mem_append.mp hxs with hx1 | hx1
    · exact (List.pairwise_append.mp hsorted).2.2 x hx1 e (List.mem_singleton_self e)
    · rw [List.mem_singleton.mp hx1]
  · intro s hs hsne'
    rw [he]
    show seen (remember st.dedup ((some e).bind Event.hash)) s = true
    rw [Option.some_bind, hs]
    exact seen_remember_self st.dedup s hsne'

theorem seed_no_emit_sets_anchor_witness :
    (processPoll ⟨120, false, 1000, 0⟩ ⟨none, initDedup 5⟩
        [⟨some "a", some 1⟩, ⟨some "b", some 2⟩]).2 = [] ∧
    ∃ e : Event,
      (sortBatch [⟨some "a", some 1⟩, ⟨some "b", some 2⟩]).getLast? = some e ∧
      (processPoll ⟨120, false, 1000, 0⟩ ⟨none, initDedup 5⟩
          [⟨some "a", some 1⟩, ⟨some "b", some 2⟩]).1.anchor = e.hash ∧
      (∀ x ∈ [Event.mk (some "a") (some 1), Event.mk (some "b") (some 2)],
        timeKey x ≤ timeKey e) ∧
      (∀ s : String, e.hash = some s → s ≠ "" →
        seen (processPoll ⟨120, false, 1000, 0⟩ ⟨none, initDedup 5⟩
            [⟨some "a", some 1⟩, ⟨some "b", some 2⟩]).1.dedup s = true) :=
  seed_no_emit_sets_anchor ⟨120, false, 1000, 0⟩ ⟨none, initDedup 5⟩
    [⟨some "a", some 1⟩, ⟨some "b", some 2⟩] rfl (by decide)

/-! ### The candidate-loop fold: notified hashes come from distinct batch
events, and the final anchor is the hash of the last handled candidate -/

lemma fold_main (ctx : PollCtx) :
    ∀ (c : List Event) (a : String) (d : DedupState) (n : List String),
    ∃ c₁ c₂ sub : List Event, c = c₁ ++ c₂ ∧ sub.Sublist c₁ ∧
      (∀ e ∈ sub, e.hash = some (hashD e) ∧ hashD e ≠ "") ∧
      (c.foldl (processCandidate ctx) ⟨a, d, n⟩).notified = n ++ sub.map hashD ∧
      ((c₁ = [] ∧ c.foldl (processCandidate ctx) ⟨a, d, n⟩ = ⟨a, d, n⟩) ∨
       (∃ u e₁, c₁ = u ++ [e₁] ∧ e₁.hash = some (hashD e₁) ∧ hashD e₁ ≠ "" ∧
         (c.foldl (processCandidate ctx) ⟨a, d, n⟩).anchor = hashD e₁)) := by
  intro c
  induction c with
  | nil =>
      intro a d n
      exact ⟨[], [], [], rfl, List.Sublist.refl [], by simp, by simp,
        Or.inl ⟨rfl, rfl⟩⟩
  | cons e c ih =>
      intro a d n
      by_cases hskip : hashD e = "" ∨ seen d (hashD e)
      · have hstep : processCandidate ctx ⟨a, d, n⟩ e = ⟨a, d, n⟩ := by
          rw [processCandidate]
          exact if_pos hskip
        obtain ⟨c₁', c₂', sub', hc', hsub', hprop', hnot', hdisj'⟩ := ih a d n
        rcases hdisj' with ⟨hnil, heq⟩ | ⟨u, e₁, hu, he₁, hne₁, hanch⟩
        · refine ⟨[], e :: c, [], rfl, List.Sublist.refl [], by simp, ?_,
            Or.inl ⟨rfl, ?_⟩⟩
          · rw [List.foldl_cons, hstep, heq]; simp
          · rw [List.foldl_cons, hstep, heq]
        · refine ⟨e :: c₁', c₂', sub', by rw [hc']; rfl,
            hsub'.trans (List.sublist_cons_self e c₁'), hprop', ?_, ?_⟩
          · rw [List.foldl_cons, hstep, hnot']
          · refine Or.inr ⟨e :: u, e₁, by rw [hu]; rfl, he₁, hne₁, ?_⟩
            rw [List.foldl_cons, hstep, hanch]
      · push_neg at hskip
        obtain ⟨hne, hnseen⟩ := hskip
        have htx : e.hash = some (hashD e) := by
          rw [hashD]
          cases hh : e.hash with
          | none => exact absurd (by rw [hashD, hh]; rfl) hne
          | some s => rfl
        have hnseen' : seen d (hashD e) = false := by
          simpa using hnseen
        by_cases hold : (tooOld ctx e && !ctx.allowBackfill) = true
        · -- suppressed: remember + anchor advance, no sink call
          have hstep : processCandidate ctx ⟨a, d, n⟩ e =
              ⟨hashD e, remember d (some (hashD e)), n⟩ := by
            rw [processCandidate]
            rw [if_neg (by push_neg; exact ⟨hne, hnseen⟩), if_pos hold]
          obtain ⟨c₁', c₂', sub', hc', hsub', hprop', hnot', hdisj'⟩ :=
            ih (hashD e) (remember d (some (hashD e))) n
          rcases hdisj' with ⟨hnil, heq⟩ | ⟨u, e₁, hu, he₁, hne₁, hanch⟩
          · refine ⟨[e], c, [], rfl, List.nil_sublist [e], by simp, ?_,
              Or.inr ⟨[], e, rfl, htx, hne, ?_⟩⟩
            · rw [List.foldl_cons, hstep, heq]; simp
            · rw [List.foldl_cons, hstep, heq]
          · refine ⟨e :: c₁', c₂', sub', by rw [hc']; rfl,
              hsub'.trans (List.sublist_cons_self e c₁'), hprop', ?_, ?_⟩
            · rw [List.foldl_cons, hstep, hnot']
            · refine Or.inr ⟨e :: u, e₁, by rw [hu]; rfl, he₁, hne₁, ?_⟩
              rw [List.foldl_cons, hstep, hanch]
        · -- notified: sink call + remember + anchor advance
          have hstep : processCandidate ctx ⟨a, d, n⟩ e =
              ⟨hashD e, remember d (some (hashD e)), n ++ [hashD e]⟩ := by
            rw [processCandidate]
            rw [if_neg (by push_neg; exact ⟨hne, hnseen⟩),
              if_neg (by simpa using hold)]
          obtain ⟨c₁', c₂', sub', hc', hsub', hprop', hnot', hdisj'⟩ :=
            ih (hashD e) (remember d (some (hashD e))) (n ++ [hashD e])
          rcases hdisj' with ⟨hnil, heq⟩ | ⟨u, e₁, hu, he₁, hne₁, hanch⟩
          · refine ⟨[e], c, [e], rfl, List.Sublist.refl [e],
              by simpa using ⟨htx, hne⟩, ?_, Or.inr ⟨[], e, rfl, htx, hne, ?_⟩⟩
            · rw [List.foldl_cons, hstep, heq]; simp
            · rw [List.foldl_cons, hstep, heq]
          · refine ⟨e :: c₁', c₂', e :: sub', by rw [hc']; rfl,
              hsub'.cons₂ e, ?_, ?_, ?_⟩
            · intro x hx
              rcases List.mem_cons.mp hx with hx | hx
              · rw [hx]; exact ⟨htx, hne⟩
              · exact hprop' x hx
            · rw [List.foldl_cons, hstep, hnot']
              simp
            · refine Or.inr ⟨e :: u, e₁, by rw [hu]; rfl, he₁, hne₁, ?_⟩
              rw [List.foldl_cons, hstep, hanch]

/-! ### C7: processing the same batch twice -/

/-- C7: under the data-model invariant that distinct events carry distinct
hashes, two successive polls over identical batch data call the
notification sink at most once per transaction hash: the concatenation of
the two polls' notification lists has no duplicates (main.py lines
176-179, 246-247 / 308-311, 361-362). -/
theorem same_batch_twice_at_most_once (ctx : PollCtx) (st : StreamState)
    (batch : List Event) (hnd : (batch.map hashD).Nodup) :
    ((processPoll ctx st batch).2 ++
      (processPoll ctx (processPoll ctx st batch).1 batch).2).Nodup := by
  by_cases hb : batch = []
  · subst hb
    have h0 : processPoll ctx st [] = (st, []) := by rw [processPoll]; rfl
    rw [h0]
    simp [h0]
  · have hsne : sortBatch batch ≠ [] := sortBatch_ne_nil batch hb
    have hndl : ((sortBatch batch).map hashD).Nodup :=
      ((sortBatch_perm batch).map hashD).nodup_iff.mpr hnd
    cases hanch : st.anchor with
    | none =>
        rw [processPoll_seed ctx st batch hb hanch]
        simp only [List.nil_append]
        obtain ⟨e, he⟩ : ∃ e, (sortBatch batch).getLast? = some e := by
          cases hgl : (sortBatch batch).getLast? with
          | none => exact absurd (List.getLast?_eq_none_iff.mp hgl) hsne
          | some e => exact ⟨e, rfl⟩
        have he' : e = (sortBatch batch).getLast hsne := by
          rw [List.getLast?_eq_getLast _ hsne, Option.some_inj] at he
          exact he.symm
        have hdec : (sortBatch batch).dropLast ++ [e] = sortBatch batch := by
          rw [he']
          exact List.dropLast_append_getLast hsne
        rw [he]
        cases hh : e.hash with
        | none =>
            rw [processPoll_seed ctx _ batch hb (by simp [hh])]
            simp
        | some a =>
            have hanch1 : ((⟨(some e).bind Event.hash,
                remember st.dedup ((some e).bind Event.hash)⟩ : StreamState)).anchor
                = some a := by
              show (some e).bind Event.hash = some a
              rw [Option.some_bind, hh]
            rw [processPoll_steady ctx _ batch a hb hanch1]
            have hcands : computeCandidates a (sortBatch batch) = [] := by
              rw [← hdec]
              exact computeCandidates_last_occ a (sortBatch batch).dropLast []
                e hh (by simp)
            rw [hcands]
            simp
    | some a =>
        rw [processPoll_steady ctx st batch a hb hanch]
        obtain ⟨c₁, c₂, sub₁, hc, hsub₁, hprop₁, hnot₁, hdisj⟩ :=
          fold_main ctx (computeCandidates a (sortBatch batch)) a st.dedup []
        rcases hdisj with ⟨hc₁, heq⟩ | ⟨u, e₁, hc₁, he₁, hne₁, hanchr⟩
        · -- nothing was handled: the second poll starts from the same state
          rw [heq]
          have hanch1 : ((⟨some a, st.dedup⟩ : StreamState)).anchor = some a := rfl
          rw [processPoll_steady ctx ⟨some a, st.dedup⟩ batch a hb hanch1]
          show (([] : List String) ++
            ((computeCandidates a (sortBatch batch)).foldl (processCandidate ctx)
              ⟨a, st.dedup, []⟩).notified).Nodup
          rw [heq]
          simp
        · -- some candidate was handled: the new anchor is the hash of the
          -- last handled event, and the second poll's candidates are the
          -- events strictly after it
          obtain ⟨p, hp⟩ := computeCandidates_suffix a (sortBatch batch)
          have hl : sortBatch batch = (p ++ u) ++ e₁ :: c₂ := by
            rw [← hp, hc, hc₁]
            simp
          have hv : ∀ x ∈ c₂, x.hash ≠ some (hashD e₁) := by
            intro x hx hxeq
            have hx' : hashD x = hashD e₁ := by rw [hashD, hxeq]; rfl
            have hnd2 : (((p ++ u) ++ e₁ :: c₂).map hashD).Nodup := by
              rw [← hl]; exact hndl
            rw [List.map_append, List.map_cons] at hnd2
            have h2 := (List.nodup_append.mp hnd2).2.1
            have h3 := (List.nodup_cons.mp h2).1
            exact h3 (hx' ▸ List.mem_map_of_mem hashD hx)
          have hcands₂ : computeCandidates (hashD e₁) (sortBatch batch) = c₂ := by
            rw [hl]
            exact computeCandidates_last_occ (hashD e₁) (p ++ u) c₂ e₁ he₁ hv
          have hanch1 : ((⟨some ((computeCandidates a (sortBatch batch)).foldl
              (processCandidate ctx) ⟨a, st.dedup, []⟩).anchor,
              ((computeCandidates a (sortBatch batch)).foldl
                (processCandidate ctx) ⟨a, st.dedup, []⟩).dedup⟩ :
                StreamState)).anchor = some (hashD e₁) := by
            show some _ = some (hashD e₁)
            rw [hanchr]
          rw [processPoll_steady ctx _ batch (hashD e₁) hb hanch1]
          show (((computeCandidates a (sortBatch batch)).foldl
              (processCandidate ctx) ⟨a, st.dedup, []⟩).notified ++
            ((computeCandidates (hashD e₁) (sortBatch batch)).foldl
              (processCandidate ctx)
              ⟨hashD e₁, ((computeCandidates a (sortBatch batch)).foldl
                (processCandidate ctx) ⟨a, st.dedup, []⟩).dedup, []⟩).notified).Nodup
          rw [hcands₂]
          obtain ⟨c₁', c₂', sub₂, hc', hsub₂, hprop₂, hnot₂, _⟩ :=
            fold_main ctx c₂ (hashD e₁)
              ((computeCandidates a (sortBatch batch)).foldl
                (processCandidate ctx) ⟨a, st.dedup, []⟩).dedup []
          rw [hnot₁, hnot₂]
          simp only [List.nil_append]
          rw [← List.map_append]
          have hs12 : (sub₁ ++ sub₂).Sublist (sortBatch batch) := by
            have h1 : (sub₁ ++ sub₂).Sublist (c₁ ++ c₂) := by
              apply List.Sublist.append hsub₁
              refine hsub₂.trans ?_
              rw [hc']
              exact List.sublist_append_left c₁' c₂'
            refine h1.trans ?_
            rw [← hc]
            exact (computeCandidates_suffix a (sortBatch batch)).sublist
          exact hndl.sublist (hs12.map hashD)

theorem same_batch_twice_at_most_once_witness :
    ((processPoll ⟨120, false, 1000, 0⟩ ⟨some "x", initDedup 5⟩
        [⟨some "a", some 1⟩, ⟨some "b", some 2⟩]).2 ++
      (processPoll ⟨120, false, 1000, 0⟩
        (processPoll ⟨120, false, 1000, 0⟩ ⟨some "x", initDedup 5⟩
          [⟨some "a", some 1⟩, ⟨some "b", some 2⟩]).1
        [⟨some "a", some 1⟩, ⟨some "b", some 2⟩]).2).Nodup :=
  same_batch_twice_at_most_once ⟨120, false, 1000, 0⟩ ⟨some "x", initDedup 5⟩
    [⟨some "a", some 1⟩, ⟨some "b", some 2⟩] (by decide)

/-! ### C8: persistence of anchor and de-dup state -/

/-- C8 (counterexample): the claim says the state is flushed to persistent
storage after every mutation.  Here a poll mutates the stream state (the
anchor moves from `"x"` to `"a"` after a notified event), yet durable
storage still holds nothing afterwards — the source contains no
persistence code (the state lives in module globals, main.py lines
34-45), so nothing is ever flushed. -/
theorem no_flush_counterexample :
    (pollProcess ⟨120, false, 1000, 0⟩ ⟨⟨some "x", initDedup 8000⟩, none⟩
        [⟨some "a", some 900⟩]).1.stream ≠
      (⟨⟨some "x", initDedup 8000⟩, none⟩ : ProcessState).stream ∧
    (pollProcess ⟨120, false, 1000, 0⟩ ⟨⟨some "x", initDedup 8000⟩, none⟩
        [⟨some "a", some 900⟩]).1.storage = none := by decide

/-- C8 (amended): the anchor and de-dup store are kept in process memory
only; a poll never touches durable storage.  After a restart the rebuilt
process re-seeds its stream from the first fetched batch and emits
nothing for it, so already-notified events are not re-notified — the
protection comes from re-seeding, not from persistence. -/
theorem state_in_memory_restart_safe (ctx : PollCtx) (c : Nat)
    (p : ProcessState) (batch : List Event) :
    (pollProcess ctx p batch).1.storage = p.storage ∧
    (pollProcess ctx (restartProcess c p) batch).2 = [] := by
  refine ⟨rfl, ?_⟩
  show (processPoll ctx (restartProcess c p).stream batch).2 = []
  by_cases hb : batch = []
  · subst hb
    rw [processPoll]
    rfl
  · rw [processPoll_seed ctx _ batch hb rfl]

/-! ### C9: configuration validation at startup -/

/-- C9 (counterexample): the claim says the process fails fast when a
required configuration value is absent.  With an entirely empty
environment — every required credential missing — startup succeeds: the
`os.getenv` reads yield `None` without any validation and the numeric
options take their defaults, so the process starts and only fails later
inside the (caught) polling requests. -/
theorem missing_config_no_failfast_counterexample :
    parseConfig (fun _ => none) =
      Except.ok ⟨none, none, none, none, 30, "https://s1.ripple.com:51234/",
        120, false, 10, 8000, 5⟩ := by rfl

/-- C9 (amended): startup configuration reading never fails on absent
values — required credentials are read unvalidated (absent ones become
`None`) and numeric options fall back to defaults — while a present but
malformed numeric value (here `POLL_INTERVAL="abc"`) raises an uncaught
`ValueError` at module scope and terminates the process. -/
theorem config_parsing_behavior :
    parseConfig (fun _ => none) =
      Except.ok ⟨none, none, none, none, 30, "https://s1.ripple.com:51234/",
        120, false, 10, 8000, 5⟩ ∧
    parseConfig (fun k => if k = "POLL_INTERVAL" then some "abc" else none) =
      Except.error "POLL_INTERVAL" := by constructor <;> rfl
